import Mathlib

/-!
Verification of the fixflac4lms core against its specification.

The Go source is shallowly embedded: Go strings and byte slices are both
raw byte sequences, modelled uniformly as `List Nat` (each element a byte
value; all data appearing in the claims is ASCII).  Machine integers are
modelled as `Nat` with explicit `% 2^32` where Go's `uint32` conversions
truncate.  Fallible operations return `Option` / `Except`.
-/

/-- A Go string / byte slice: a raw byte sequence. -/
abbrev GoStr := List Nat

instance {ε α : Type} [DecidableEq ε] [DecidableEq α] :
    DecidableEq (Except ε α) := fun a b =>
  match a, b with
  | .error e, .error f => decidable_of_iff (e = f) (by simp)
  | .ok x, .ok y => decidable_of_iff (x = y) (by simp)
  | .error _, .ok _ => isFalse (fun h => Except.noConfusion h)
  | .ok _, .error _ => isFalse (fun h => Except.noConfusion h)

/-- Byte sequence of an ASCII Lean string literal (used to write the
concrete tag names and extensions appearing in the source). -/
def s2b (s : String) : GoStr := s.data.map Char.toNat

/-- Little-endian encoding of the low 32 bits of a natural number, as
written by Go's binary.Write with binary.LittleEndian for a uint32 value.
A Go conversion uint32(n) keeps exactly the low 32 bits, which is what the
four byte components below depend on. -/
def u32le (n : Nat) : GoStr :=
  [n % 256, n / 256 % 256, n / 65536 % 256, n / 16777216 % 256]

/-- Big-endian encoding of the low 32 bits of a natural number, as written
by Go's binary.Write with binary.BigEndian for a uint32 value. -/
def u32be (n : Nat) : GoStr :=
  [n / 16777216 % 256, n / 65536 % 256, n / 256 % 256, n % 256]

/-- binary.Read of a little-endian uint32: consumes 4 bytes, fails (io.EOF
or ErrUnexpectedEOF) when fewer than 4 bytes remain. -/
def readU32 : GoStr → Option (Nat × GoStr)
  | b0 :: b1 :: b2 :: b3 :: rest =>
      some (b0 + 256 * b1 + 65536 * b2 + 16777216 * b3, rest)
  | _ => none

/-- io.ReadFull into a buffer of the given size: consumes exactly that many
bytes, fails when fewer remain. -/
def readBytes : Nat → GoStr → Option (GoStr × GoStr)
  | 0, rest => some ([], rest)
  | _ + 1, [] => none
  | n + 1, b :: rest =>
      match readBytes n rest with
      | some (bs, r) => some (b :: bs, r)
      | none => none

/-- In-memory Vorbis comment block (type VorbisComment in the source):
vendor string and list of comment strings. -/
structure VorbisComment where
  vendor : GoStr
  comments : List GoStr
deriving DecidableEq, Repr

/-- The comment-reading loop of ParseVorbisComment: reads the given number
of (length, payload) pairs. -/
def readComments : Nat → GoStr → Option (List GoStr × GoStr)
  | 0, rest => some ([], rest)
  | n + 1, rest =>
      match readU32 rest with
      | none => none
      | some (len, r1) =>
          match readBytes len r1 with
          | none => none
          | some (c, r2) =>
              match readComments n r2 with
              | none => none
              | some (cs, r3) => some (c :: cs, r3)

/-- ParseVorbisComment together with the bytes left unread at the end.
The Go function reads from a bytes.Reader and never checks that the input
is exhausted, so trailing bytes are silently ignored; this variant makes
the leftover explicit. -/
def ParseVorbisCommentRest (data : GoStr) : Option (VorbisComment × GoStr) :=
  match readU32 data with
  | none => none
  | some (vendorLen, r1) =>
      match readBytes vendorLen r1 with
      | none => none
      | some (vendor, r2) =>
          match readU32 r2 with
          | none => none
          | some (listLen, r3) =>
              match readComments listLen r3 with
              | none => none
              | some (comments, r4) =>
                  some (⟨vendor, comments⟩, r4)

/-- ParseVorbisComment from the source: decodes a comment block payload,
ignoring any trailing bytes, or fails on truncated input. -/
def ParseVorbisComment (data : GoStr) : Option VorbisComment :=
  (ParseVorbisCommentRest data).map (fun p => p.1)

/-- VorbisComment.Marshal from the source: little-endian u32 lengths (each
truncated to 32 bits by the Go uint32 conversions) followed by the raw
bytes, for the vendor, then the comment count, then each comment. -/
def VorbisComment.Marshal (vc : VorbisComment) : GoStr :=
  u32le vc.vendor.length ++ vc.vendor ++
  u32le vc.comments.length ++
  vc.comments.flatMap (fun c => u32le c.length ++ c)

/-- In-memory picture block (type Picture in the source).  The Go fields
are uint32; they are modelled as Nat, with Marshal writing their low 32
bits exactly as binary.Write does. -/
structure Picture where
  pictureType : Nat
  mimeType : GoStr
  description : GoStr
  width : Nat
  height : Nat
  depth : Nat
  colors : Nat
  data : GoStr
deriving DecidableEq, Repr

/-- Picture.Marshal from the source: fixed-order big-endian u32 fields with
length-prefixed strings and binary data. -/
def Picture.Marshal (p : Picture) : GoStr :=
  u32be p.pictureType ++
  u32be p.mimeType.length ++ p.mimeType ++
  u32be p.description.length ++ p.description ++
  u32be p.width ++ u32be p.height ++ u32be p.depth ++ u32be p.colors ++
  u32be p.data.length ++ p.data

/-! ## Tag merge engine (processMBIDs) -/

/-- strings.ToUpper from the Go standard library, restricted to the ASCII
fragment actually exercised by the tag keys (byte values 97..122 map to
65..90; every other byte is unchanged). -/
def goToUpper (s : GoStr) : GoStr :=
  s.map (fun b => if 97 ≤ b ∧ b ≤ 122 then b - 32 else b)

/-- strings.SplitN(c, sep, 2) for the single-byte separator 61 (the ASCII
code of the equals sign): none when the separator is absent (the Go call
returns a one-element slice, which the source passes through), otherwise
the bytes before the first separator and the bytes after it. -/
def splitEq (c : GoStr) : Option (GoStr × GoStr) :=
  let pre := c.takeWhile (fun b => b ≠ 61)
  if pre.length = c.length then none
  else some (pre, c.drop (pre.length + 1))

/-- The Go map tagValues: an association list from tag key to the values
collected so far for that key. -/
abbrev TagMap := List (GoStr × List GoStr)

/-- Lookup in tagValues; a missing key yields the Go zero value, the empty
slice. -/
def tmGet : TagMap → GoStr → List GoStr
  | [], _ => []
  | (k, vs) :: m, t => if k = t then vs else tmGet m t

/-- tagValues[key] = append(tagValues[key], val): append one value under a
key, creating the entry when absent (Go map zero-value semantics). -/
def tmApp : TagMap → GoStr → GoStr → TagMap
  | [], k, v => [(k, [v])]
  | (k', vs) :: m, k, v =>
      if k' = k then (k', vs ++ [v]) :: m else (k', vs) :: tmApp m k v

/-- The initialisation loop of processMBIDs: tagValues[t] = empty slice for
every configured target tag. -/
def initTargets : List GoStr → TagMap
  | [] => []
  | t :: ts => (t, []) :: initTargets ts

/-- The MUSICBRAINZ_ namespace marker used for warning-only tracking. -/
def mbMarker : GoStr := s2b "MUSICBRAINZ_"

/-- The first pass of processMBIDs over the comment list: comments without
a separator pass through; comments whose upper-cased key is in the target
list have their value collected and are dropped from the passthrough list;
comments whose upper-cased key merely starts with the MUSICBRAINZ_ marker
are tracked for warnings and also pass through; every other comment passes
through.  Returns the final tagValues map and the passthrough list. -/
def firstPass (targets : List GoStr) : TagMap → List GoStr → TagMap × List GoStr
  | tv, [] => (tv, [])
  | tv, c :: cs =>
      match splitEq c with
      | none =>
          let r := firstPass targets tv cs
          (r.1, c :: r.2)
      | some (k0, v) =>
          let k := goToUpper k0
          if k ∈ targets then
            firstPass targets (tmApp tv k v) cs
          else if mbMarker.isPrefixOf k then
            let r := firstPass targets (tmApp tv k v) cs
            (r.1, c :: r.2)
          else
            let r := firstPass targets tv cs
            (r.1, c :: r.2)

/-- The second pass of processMBIDs: one output entry per configured target
with at least one collected value, in target order; two or more values are
joined with byte 43 (the ASCII plus sign) and set the modified flag.  The
warning loop over non-target MUSICBRAINZ_ keys between the passes only
logs and does not affect the result, so it is not modelled. -/
def secondPass (tv : TagMap) : List GoStr → List GoStr × Bool
  | [] => ([], false)
  | t :: ts =>
      let r := secondPass tv ts
      match tmGet tv t with
      | [] => r
      | [v] => ((t ++ [61] ++ v) :: r.1, r.2)
      | v :: v' :: vs =>
          ((t ++ [61] ++ List.intercalate [43] (v :: v' :: vs)) :: r.1, true)

/-- The pure core of processMBIDs: given the configured merge targets and
the decoded comment list, the new comment list (passthrough entries in
original order followed by the merged target entries) and the modified
flag. -/
def mergeComments (targets : List GoStr) (comments : List GoStr) :
    List GoStr × Bool :=
  let fp := firstPass targets (initTargets targets) comments
  let sp := secondPass fp.1 targets
  (fp.2 ++ sp.1, sp.2)

/-- Specification-level view of the collected values of one target key:
the values of the comments whose upper-cased key equals it, in encounter
order. -/
def collectSpec (t : GoStr) (comments : List GoStr) : List GoStr :=
  comments.filterMap (fun c =>
    match splitEq c with
    | none => none
    | some (k0, v) => if goToUpper k0 = t then some v else none)

/-- go-flac metadata block: a type tag and an opaque payload.  The relevant
type tags are flac.VorbisComment = 4 and flac.Picture = 6. -/
structure MetaDataBlock where
  btype : Nat
  bdata : GoStr
deriving DecidableEq, Repr

/-- flac.VorbisComment block-type tag. -/
def vcType : Nat := 4

/-- flac.Picture block-type tag. -/
def picType : Nat := 6

/-- The block-search loop of processMBIDs: the first block whose type is
VorbisComment, if any. -/
def findVC : List MetaDataBlock → Option MetaDataBlock
  | [] => none
  | b :: bs => if b.btype = vcType then some b else findVC bs

/-- The in-place cmtBlock.Data assignment: replace the payload of the first
VorbisComment block. -/
def replaceFirstVC (newData : GoStr) : List MetaDataBlock → List MetaDataBlock
  | [] => []
  | b :: bs =>
      if b.btype = vcType then ⟨b.btype, newData⟩ :: bs
      else b :: replaceFirstVC newData bs

/-- The default merge-target list built in main when --merge-tags is not
given. -/
def defaultMergeTags : List GoStr :=
  [s2b "MUSICBRAINZ_ARTISTID",
   s2b "MUSICBRAINZ_ALBUMARTISTID",
   s2b "MUSICBRAINZ_RELEASE_ARTISTID"]

/-- processMBIDs from the source, over the metadata block list of a parsed
file: no VorbisComment block is a no-op; an unparseable comment payload is
an error; otherwise the comments are merged and, exactly when the modified
flag is set, the comment block's payload is re-marshalled with the same
vendor and the new comment list. -/
def processMBIDs (targets : List GoStr) (meta : List MetaDataBlock) :
    Except Unit (Bool × List MetaDataBlock) :=
  match findVC meta with
  | none => .ok (false, meta)
  | some blk =>
      match ParseVorbisComment blk.bdata with
      | none => .error ()
      | some vc =>
          let r := mergeComments targets vc.comments
          if r.2 then
            .ok (true, replaceFirstVC
              (VorbisComment.Marshal ⟨vc.vendor, r.1⟩) meta)
          else
            .ok (false, meta)

/-! ## Cover resolver (processCover) -/

/-- processCover from the source, over the metadata block list.  The
filesystem and image-decoding collaborators are oracles: coverExists is
the os.Stat result for the external cover file, imgConfig the result of
image.DecodeConfig (none = decode error), imgData the bytes read from the
file.  A block list already containing a Picture block is returned
untouched with modified = false before any of the oracles are consulted. -/
def processCover (coverExists : Bool) (imgConfig : Option (Nat × Nat))
    (imgData : GoStr) (meta : List MetaDataBlock) :
    Except Unit (Bool × List MetaDataBlock) :=
  if meta.any (fun b => b.btype = picType) then
    .ok (false, meta)
  else if !coverExists then
    .ok (false, meta)
  else
    match imgConfig with
    | none => .error ()
    | some (w, h) =>
        .ok (true, meta ++ [⟨picType,
          (Picture.mk 3 (s2b "image/jpeg") [] w h 24 0 imgData).Marshal⟩])

/-! ## Library sync engine (convertOpus) -/

/-- A file on disk, as far as the sync engine observes it: a modification
time and an opaque content stamp. -/
structure FsFile where
  mtime : Nat
  content : Nat
deriving DecidableEq, Repr

/-- The filesystem visible to convertOpus: a finite map from path to file,
as an association list. -/
abbrev Fs := List (GoStr × FsFile)

/-- os.Stat: the file at a path, if present. -/
def fsStat : Fs → GoStr → Option FsFile
  | [], _ => none
  | (p, f) :: m, q => if p = q then some f else fsStat m q

/-- os.Remove of a file path. -/
def fsRemove : Fs → GoStr → Fs
  | [], _ => []
  | (p, f) :: m, q => if p = q then fsRemove m q else (p, f) :: fsRemove m q

/-- Create or overwrite the file at a path. -/
def fsPut (m : Fs) (p : GoStr) (f : FsFile) : Fs :=
  (p, f) :: fsRemove m p

/-- os.Rename: moves the file at the source path to the destination path;
fails when the source path does not exist. -/
def fsRename (m : Fs) (src dst : GoStr) : Option Fs :=
  match fsStat m src with
  | none => none
  | some f => some (fsPut (fsRemove m src) dst f)

/-- The opusenc subprocess, as an oracle: its exit status and the file it
leaves at the temporary output path when it runs (none = nothing written,
some f = a complete or partial encoding). -/
structure Encoder where
  exitOk : Bool
  tempWritten : Option FsFile
deriving DecidableEq, Repr

/-- Running the encoder against a temporary path: the filesystem after the
run and the exit status. -/
def runEncoder (enc : Encoder) (m : Fs) (temp : GoStr) : Fs × Bool :=
  (match enc.tempWritten with
   | none => m
   | some f => fsPut m temp f, enc.exitOk)

/-- Result of one convertOpus call: the filesystem afterwards, the Go
return values (converted flag or error), and how many times the encoder
subprocess was invoked. -/
structure ConvResult where
  fs : Fs
  result : Except Unit Bool
  encCalls : Nat
deriving Repr

/-- The temporary-path suffix ".tmp" appended to the output file name. -/
def tmpSuffix : GoStr := s2b ".tmp"

/-- convertOpus from the source, starting at its staleness check (the
output path has been derived and os.MkdirAll has run; directory creation
does not touch the file map).  verbose and progress are config.Verbose and
config.Progress; the encoder oracle stands for the opusenc subprocess.
Faithful to the two Go output-handling branches: in the verbose
pass-through branch a failed encode removes the temporary file, in the
captured-stderr branch it does not. -/
def convertOpus (verbose progress : Bool) (enc : Encoder) (m : Fs)
    (inputFile outputFile : GoStr) : ConvResult :=
  match fsStat m inputFile with
  | none => ⟨m, .error (), 0⟩
  | some inStat =>
      let skip :=
        match fsStat m outputFile with
        | some outStat => !(decide (outStat.mtime < inStat.mtime))
        | none => false
      if skip then ⟨m, .ok false, 0⟩
      else
        let temp := outputFile ++ tmpSuffix
        let r := runEncoder enc m temp
        if verbose && !progress then
          if !r.2 then ⟨fsRemove r.1 temp, .error (), 1⟩
          else
            match fsRename r.1 temp outputFile with
            | none => ⟨r.1, .error (), 1⟩
            | some m2 => ⟨m2, .ok true, 1⟩
        else
          if !r.2 then ⟨r.1, .error (), 1⟩
          else
            match fsRename r.1 temp outputFile with
            | none => ⟨r.1, .error (), 1⟩
            | some m2 => ⟨m2, .ok true, 1⟩

/-! ## Prune pass (pruneOutput)

The output tree is modelled as a directory tree; entry names are raw byte
sequences (path components never contain the separator byte).  Paths are
component lists relative to the output root, whose own path is the empty
list. -/

/-- One entry of the output tree: a file or a directory with children. -/
inductive Entry where
  | file (name : GoStr)
  | dir (name : GoStr) (children : List Entry)

/-- strings.HasPrefix(name, hidden marker): the name starts with byte 46,
the ASCII full stop. -/
def hiddenName : GoStr → Bool
  | 46 :: _ => true
  | _ => false

/-- filepath.Ext on a path component: from the last byte 46 of the name to
its end, or empty when the name has no such byte.  Go scans the full path
backwards stopping at a separator; since path components contain no
separator this is the same computation. -/
def pathExt (n : GoStr) : GoStr :=
  if 46 ∈ n then 46 :: (n.reverse.takeWhile (fun b => b ≠ 46)).reverse
  else []

/-- strings.TrimSuffix(name, pathExt name): pathExt is always a suffix, so
this drops exactly its length. -/
def stripExt (n : GoStr) : GoStr :=
  n.take (n.length - (pathExt n).length)

/-- strings.EqualFold restricted to the ASCII fragment (the only strings
compared are ".opus" extensions). -/
def goEqualFold (a b : GoStr) : Bool :=
  goToUpper a = goToUpper b

/-- The stale-temporary suffix ".opus.tmp".  The Go code tests the full
path with strings.HasSuffix; the suffix contains no separator byte, so the
test is equivalent to a suffix test on the final component. -/
def tmpTail : GoStr := s2b ".opus.tmp"

/-- The output extension ".opus". -/
def opusExt : GoStr := s2b ".opus"

/-- The source extension ".flac". -/
def flacExt : GoStr := s2b ".flac"

/-- strings.HasSuffix(path, ".opus.tmp") on the final component. -/
def isTmpName (n : GoStr) : Bool := tmpTail.isSuffixOf n

/-- strings.EqualFold(filepath.Ext(path), ".opus"). -/
def isOpusName (n : GoStr) : Bool := goEqualFold (pathExt n) opusExt

/-- The expected source counterpart of an output file: the same relative
directory path with the extension replaced by ".flac" (the orphan check
joins this onto the input root and calls os.Stat). -/
def expectedFlac (rel : List GoStr) (n : GoStr) : List GoStr :=
  rel ++ [stripExt n ++ flacExt]

/-- The per-file decision of the prune walk: a stale temporary file is
removed; an output file with the ".opus" extension is kept exactly when
its expected source counterpart exists; every other file is kept.
srcExists is the os.Stat oracle over the input tree. -/
def keepFile (srcExists : List GoStr → Bool) (rel : List GoStr)
    (n : GoStr) : Bool :=
  if isTmpName n then false
  else if isOpusName n then srcExists (expectedFlac rel n)
  else true

mutual

/-- The file-deletion phase of the prune walk on one entry: a file is kept
or deleted per keepFile; a hidden directory is returned untouched
(filepath.SkipDir — never descended into); any other directory keeps its
node (directory removal is the second phase) and recurses. -/
def walkE (srcExists : List GoStr → Bool) (rel : List GoStr) :
    Entry → List Entry
  | .file n => if keepFile srcExists rel n then [.file n] else []
  | .dir n cs =>
      if hiddenName n then [.dir n cs]
      else [.dir n (walkL srcExists (rel ++ [n]) cs)]

/-- The file-deletion phase over a list of sibling entries. -/
def walkL (srcExists : List GoStr → Bool) (rel : List GoStr) :
    List Entry → List Entry
  | [] => []
  | e :: es => walkE srcExists rel e ++ walkL srcExists rel es

end

mutual

/-- The dirsToRemove collection of the walk, as paths relative to the
output root: a hidden directory is skipped with its whole subtree; the
root itself (path equal to the empty list) is excluded by the two
path-differs-from-root guards in the source, which is modelled by starting
the collection at the root's children so that every collected path is
nonempty. -/
def collectE (rel : List GoStr) : Entry → List (List GoStr)
  | .file _ => []
  | .dir n cs =>
      if hiddenName n then []
      else (rel ++ [n]) :: collectL (rel ++ [n]) cs

/-- dirsToRemove collection over sibling entries. -/
def collectL (rel : List GoStr) : List Entry → List (List GoStr)
  | [] => []
  | e :: es => collectE rel e ++ collectL rel es

end

/-- The sort key of the dirsToRemove ordering: the source sorts by byte
length of the absolute path string, which over component lists is a
constant (the root prefix) plus the component lengths plus the
separators. -/
def pathWeight (p : List GoStr) : Nat :=
  (p.map List.length).sum + p.length

/-- Insertion of a path into a list sorted by descending pathWeight. -/
def insertByWeight (p : List GoStr) : List (List GoStr) → List (List GoStr)
  | [] => [p]
  | q :: qs =>
      if pathWeight q < pathWeight p then p :: q :: qs
      else q :: insertByWeight p qs

/-- The deepest-first ordering of dirsToRemove.  The source uses a
selection sort by descending path-string length; any descending-weight
ordering places every directory before its ancestors, which is the only
property the removal loop relies on. -/
def sortByWeight : List (List GoStr) → List (List GoStr)
  | [] => []
  | p :: ps => insertByWeight p (sortByWeight ps)

/-- The final step of os.Remove on a directory path: among the siblings at
the target depth, the first directory with the target name is removed when
it is empty at this time; a non-empty directory is left alone (the source
ignores the not-empty error). -/
def removeEmptyTop (n : GoStr) : List Entry → List Entry
  | [] => []
  | .dir m [] :: rest =>
      if m = n then rest else .dir m [] :: removeEmptyTop n rest
  | e :: rest => e :: removeEmptyTop n rest

/-- os.Remove on a directory path, over the children of the output root:
an empty one-component target is removed in place; a longer path descends
through the directories carrying its leading component. -/
def removeDirAt : List Entry → List GoStr → List Entry
  | es, [] => es
  | es, [n] => removeEmptyTop n es
  | es, n :: p =>
      es.map (fun e =>
        match e with
        | .dir m cs => if m = n then .dir m (removeDirAt cs p) else .dir m cs
        | f => f)

/-- pruneOutput from the source, over the children of the output root:
the single walk deletes stale temporaries and orphaned output files while
collecting dirsToRemove, then every collected directory is removed
deepest-first when empty. -/
def pruneOutput (srcExists : List GoStr → Bool) (rootChildren : List Entry) :
    List Entry :=
  let walked := walkL srcExists [] rootChildren
  (sortByWeight (collectL [] rootChildren)).foldl removeDirAt walked

/-- The output root directory across a prune run: WalkDir visits the root
directory first, and both guards in the source compare the visited path
against the root, so the root is neither skipped (even when its own name
is hidden) nor collected for removal; only its children are processed. -/
def pruneRoot (srcExists : List GoStr → Bool) (name : GoStr)
    (children : List Entry) : Entry :=
  .dir name (pruneOutput srcExists children)

mutual

/-- All file paths of one entry, relative to its parent. -/
def filesOfE : Entry → List (List GoStr)
  | .file n => [[n]]
  | .dir n cs => (filesOfL cs).map (fun p => n :: p)

/-- All file paths under a list of sibling entries. -/
def filesOfL : List Entry → List (List GoStr)
  | [] => []
  | e :: es => filesOfE e ++ filesOfL es

end

mutual

/-- The hidden directories of one entry reachable without crossing another
hidden directory, each with its path and its untouched child list. -/
def hiddenDirsOfE (rel : List GoStr) : Entry → List (List GoStr × List Entry)
  | .file _ => []
  | .dir n cs =>
      if hiddenName n then [(rel ++ [n], cs)]
      else hiddenDirsOfL (rel ++ [n]) cs

/-- Hidden directories under a list of sibling entries. -/
def hiddenDirsOfL (rel : List GoStr) :
    List Entry → List (List GoStr × List Entry)
  | [] => []
  | e :: es => hiddenDirsOfE rel e ++ hiddenDirsOfL rel es

end

/-- Whether the file at a path survives the walk phase: it survives under
any hidden directory (the subtree is skipped), and otherwise exactly when
keepFile accepts it. -/
def keepPath (srcExists : List GoStr → Bool) (rel : List GoStr) :
    List GoStr → Bool
  | [] => true
  | [n] => keepFile srcExists rel n
  | d :: p => hiddenName d || keepPath srcExists (rel ++ [d]) p

/-! ## Codec lemmas -/

/-- The comment-list payload written by Marshal. -/
def encCmts (cs : List GoStr) : GoStr :=
  cs.flatMap (fun c => u32le c.length ++ c)

theorem readU32_u32le (n : Nat) (l : GoStr) :
    readU32 (u32le n ++ l) = some (n % 4294967296, l) := by
  simp only [u32le, List.cons_append, List.nil_append, readU32,
    Option.some.injEq, Prod.mk.injEq]
  exact ⟨by omega, by trivial⟩

theorem readBytes_append (l r : GoStr) :
    readBytes l.length (l ++ r) = some (l, r) := by
  induction l with
  | nil => simp [readBytes]
  | cons b bs ih => simp [readBytes, ih]

theorem readComments_enc (cs : List GoStr) (r : GoStr)
    (h : ∀ c ∈ cs, c.length < 4294967296) :
    readComments cs.length (encCmts cs ++ r) = some (cs, r) := by
  induction cs with
  | nil => simp [encCmts, readComments]
  | cons c cs ih =>
      have hc : c.length % 4294967296 = c.length :=
        Nat.mod_eq_of_lt (h c (by simp))
      have ih' := ih (fun d hd => h d (by simp [hd]))
      simp only [encCmts, List.flatMap_cons, List.append_assoc] at *
      simp only [List.length_cons, readComments, readU32_u32le, hc,
        readBytes_append, ih']

theorem u32le_mod (n : Nat) : u32le (n % 4294967296) = u32le n := by
  simp only [u32le, List.cons.injEq, and_true]
  refine ⟨?_, ?_, ?_, ?_⟩ <;> omega

theorem u32be_mod (n : Nat) : u32be (n % 4294967296) = u32be n := by
  simp only [u32be, List.cons.injEq, and_true]
  refine ⟨?_, ?_, ?_, ?_⟩ <;> omega

theorem parse_marshal (vc : VorbisComment)
    (hv : vc.vendor.length < 4294967296)
    (hn : vc.comments.length < 4294967296)
    (hc : ∀ c ∈ vc.comments, c.length < 4294967296) :
    ParseVorbisCommentRest vc.Marshal = some (vc, []) := by
  have henc : readComments vc.comments.length (encCmts vc.comments) =
      some (vc.comments, []) := by
    have := readComments_enc vc.comments [] hc
    simpa using this
  simp only [VorbisComment.Marshal, ParseVorbisCommentRest, List.append_assoc,
    readU32_u32le, Nat.mod_eq_of_lt hv, readBytes_append,
    Nat.mod_eq_of_lt hn]
  simp only [show vc.comments.flatMap (fun c => u32le c.length ++ c) =
    encCmts vc.comments from rfl, henc]

theorem readU32_inv {l : GoStr} {v : Nat} {r : GoStr}
    (h256 : ∀ b ∈ l, b < 256) (h : readU32 l = some (v, r)) :
    l = u32le v ++ r ∧ v < 4294967296 := by
  match l, h256 with
  | b0 :: b1 :: b2 :: b3 :: rest, h256 =>
      simp only [readU32, Option.some.injEq, Prod.mk.injEq] at h
      obtain ⟨hv, hr⟩ := h
      have c0 : b0 < 256 := h256 b0 (by simp)
      have c1 : b1 < 256 := h256 b1 (by simp)
      have c2 : b2 < 256 := h256 b2 (by simp)
      have c3 : b3 < 256 := h256 b3 (by simp)
      subst hr
      constructor
      · simp only [u32le, List.cons_append, List.nil_append, List.cons.injEq,
          and_true]
        refine ⟨?_, ?_, ?_, ?_⟩ <;> omega
      · omega

theorem readBytes_inv : ∀ {n : Nat} {l bs r : GoStr},
    readBytes n l = some (bs, r) → l = bs ++ r ∧ bs.length = n := by
  intro n
  induction n with
  | zero =>
      intro l bs r h
      simp only [readBytes, Option.some.injEq, Prod.mk.injEq] at h
      obtain ⟨h1, h2⟩ := h
      simp [← h1, ← h2]
  | succ n ih =>
      intro l bs r h
      match l with
      | [] => simp [readBytes] at h
      | b :: rest =>
          simp only [readBytes] at h
          match hrec : readBytes n rest with
          | none => simp [hrec] at h
          | some (bs', r') =>
              simp only [hrec, Option.some.injEq, Prod.mk.injEq] at h
              obtain ⟨h1, h2⟩ := h
              obtain ⟨e1, e2⟩ := ih hrec
              subst h2
              simp [← h1, e1, e2]

theorem readComments_inv : ∀ {n : Nat} {l : GoStr} {cs : List GoStr}
    {r : GoStr}, (∀ b ∈ l, b < 256) → readComments n l = some (cs, r) →
    l = encCmts cs ++ r ∧ cs.length = n := by
  intro n
  induction n with
  | zero =>
      intro l cs r _ h
      simp only [readComments, Option.some.injEq, Prod.mk.injEq] at h
      obtain ⟨h1, h2⟩ := h
      simp [← h1, ← h2, encCmts]
  | succ n ih =>
      intro l cs r h256 h
      simp only [readComments] at h
      match hu : readU32 l with
      | none => simp [hu] at h
      | some (len, r1) =>
          simp only [hu] at h
          match hb : readBytes len r1 with
          | none => simp [hb] at h
          | some (c, r2) =>
              simp only [hb] at h
              match hc : readComments n r2 with
              | none => simp [hc] at h
              | some (cs', r3) =>
                  simp only [hc, Option.some.injEq, Prod.mk.injEq] at h
                  obtain ⟨h1, h2⟩ := h
                  obtain ⟨e1, _⟩ := readU32_inv h256 hu
                  have h256r1 : ∀ b ∈ r1, b < 256 := by
                    intro b hb'
                    exact h256 b (by simp [e1, hb'])
                  obtain ⟨f1, f2⟩ := readBytes_inv hb
                  have h256r2 : ∀ b ∈ r2, b < 256 := by
                    intro b hb'
                    exact h256r1 b (by simp [f1, hb'])
                  obtain ⟨g1, g2⟩ := ih h256r2 hc
                  subst h1 h2 g1 f1 e1 f2
                  constructor
                  · simp [encCmts, List.append_assoc]
                  · simp [g2]

theorem marshal_parse {x : GoStr} {vc : VorbisComment}
    (h256 : ∀ b ∈ x, b < 256)
    (h : ParseVorbisCommentRest x = some (vc, [])) :
    vc.Marshal = x := by
  simp only [ParseVorbisCommentRest] at h
  match hu : readU32 x with
  | none => simp [hu] at h
  | some (vendorLen, r1) =>
      simp only [hu] at h
      match hb : readBytes vendorLen r1 with
      | none => simp [hb] at h
      | some (vendor, r2) =>
          simp only [hb] at h
          match hu2 : readU32 r2 with
          | none => simp [hu2] at h
          | some (listLen, r3) =>
              simp only [hu2] at h
              match hc : readComments listLen r3 with
              | none => simp [hc] at h
              | some (comments, r4) =>
                  simp only [hc, Option.some.injEq, Prod.mk.injEq] at h
                  obtain ⟨h1, h2⟩ := h
                  obtain ⟨e1, _⟩ := readU32_inv h256 hu
                  have h256r1 : ∀ b ∈ r1, b < 256 := fun b hb' =>
                    h256 b (by simp [e1, hb'])
                  obtain ⟨f1, f2⟩ := readBytes_inv hb
                  have h256r2 : ∀ b ∈ r2, b < 256 := fun b hb' =>
                    h256r1 b (by simp [f1, hb'])
                  obtain ⟨g1, _⟩ := readU32_inv h256r2 hu2
                  have h256r3 : ∀ b ∈ r3, b < 256 := fun b hb' =>
                    h256r2 b (by simp [g1, hb'])
                  obtain ⟨k1, k2⟩ := readComments_inv h256r3 hc
                  subst h2
                  subst h1
                  simp only [VorbisComment.Marshal, e1, f1, g1, k1, ← f2, ← k2]
                  simp [encCmts]

theorem parse_zero_block (l : GoStr) :
    ParseVorbisCommentRest (0 :: 0 :: 0 :: 0 :: 0 :: 0 :: 0 :: 0 :: l) =
      some (⟨[], []⟩, l) := by
  simp [ParseVorbisCommentRest, readU32, readBytes, readComments]

/-- C1 counterexample: the claim quantifies over every block whose vendor
and comment string lengths are below 2^32, but puts no bound on the number
of comments.  For the block with no vendor and 2^32 empty comments (every
string length is 0), Marshal truncates the comment-count field to 0, so
ParseVorbisComment(Marshal(b)) succeeds yet returns the empty block, not
b. -/
theorem c1_counterexample :
    ParseVorbisComment
        (VorbisComment.Marshal ⟨[], List.replicate 4294967296 []⟩) =
      some ⟨[], []⟩ ∧
    (⟨[], []⟩ : VorbisComment) ≠ ⟨[], List.replicate 4294967296 []⟩ := by
  constructor
  · have hm : VorbisComment.Marshal ⟨[], List.replicate 4294967296 []⟩ =
        0 :: 0 :: 0 :: 0 :: 0 :: 0 :: 0 :: 0 ::
          (List.replicate 4294967296 ([] : GoStr)).flatMap
            (fun c => u32le c.length ++ c) := by
      norm_num [VorbisComment.Marshal, u32le]
    unfold ParseVorbisComment
    rw [hm, parse_zero_block]
    rfl
  · intro h
    have h2 : ([] : List GoStr).length =
        (List.replicate 4294967296 ([] : GoStr)).length :=
      congrArg (fun vc : VorbisComment => vc.comments.length) h
    simp only [List.length_nil, List.length_replicate] at h2
    omega

/-- C1 (amended): the Vorbis comment codec is an exact round trip once the
comment count is also below 2^32: decoding an encoded block whose vendor
length, comment count and comment lengths all fit in 32 bits returns the
block; and any byte sequence that ParseVorbisComment consumes exactly is
reproduced by Marshal of the parsed block. -/
theorem c1_roundtrip :
    (∀ vc : VorbisComment, vc.vendor.length < 4294967296 →
      vc.comments.length < 4294967296 →
      (∀ c ∈ vc.comments, c.length < 4294967296) →
      ParseVorbisComment vc.Marshal = some vc) ∧
    (∀ (x : GoStr) (vc : VorbisComment), (∀ b ∈ x, b < 256) →
      ParseVorbisCommentRest x = some (vc, []) →
      vc.Marshal = x) := by
  constructor
  · intro vc hv hn hc
    simp [ParseVorbisComment, parse_marshal vc hv hn hc]
  · intro x vc h256 h
    exact marshal_parse h256 h

/-- Witness for c1_roundtrip: both directions applied at concrete small
inputs, every hypothesis discharged by computation. -/
theorem c1_roundtrip_witness :
    ParseVorbisComment (VorbisComment.Marshal ⟨[118], [[61]]⟩) =
      some ⟨[118], [[61]]⟩ ∧
    VorbisComment.Marshal ⟨[97], []⟩ = [1, 0, 0, 0, 97, 0, 0, 0, 0] :=
  ⟨c1_roundtrip.1 ⟨[118], [[61]]⟩ (by decide) (by decide) (by decide),
   c1_roundtrip.2 [1, 0, 0, 0, 97, 0, 0, 0, 0] ⟨[97], []⟩
     (by decide) (by decide)⟩

/-- C5 counterexample: encoding a block with a 2^32-byte vendor string is
not rejected — Marshal is total and simply writes the vendor-length field
as the four zero bytes of 2^32 mod 2^32, silently truncating it. -/
theorem c5_counterexample :
    VorbisComment.Marshal ⟨List.replicate 4294967296 0, []⟩ =
      0 :: 0 :: 0 :: 0 :: (List.replicate 4294967296 0 ++ [0, 0, 0, 0]) := by
  norm_num [VorbisComment.Marshal, u32le]

/-- C5 (amended): encoding never rejects an oversized length; every length
field of the comment and picture encoders is written modulo 2^32 (the Go
uint32 conversions keep the low 32 bits). -/
theorem c5_truncation :
    (∀ vc : VorbisComment,
      vc.Marshal = u32le (vc.vendor.length % 4294967296) ++ vc.vendor ++
        u32le (vc.comments.length % 4294967296) ++
        vc.comments.flatMap (fun c => u32le (c.length % 4294967296) ++ c)) ∧
    (∀ p : Picture,
      p.Marshal = u32be (p.pictureType % 4294967296) ++
        u32be (p.mimeType.length % 4294967296) ++ p.mimeType ++
        u32be (p.description.length % 4294967296) ++ p.description ++
        u32be (p.width % 4294967296) ++ u32be (p.height % 4294967296) ++
        u32be (p.depth % 4294967296) ++ u32be (p.colors % 4294967296) ++
        u32be (p.data.length % 4294967296) ++ p.data) := by
  constructor
  · intro vc
    simp [VorbisComment.Marshal, u32le_mod]
  · intro p
    simp [Picture.Marshal, u32be_mod]

/-! ## Merge-engine lemmas -/

theorem tmGet_tmApp (m : TagMap) (k v t : GoStr) :
    tmGet (tmApp m k v) t =
      if k = t then tmGet m t ++ [v] else tmGet m t := by
  induction m with
  | nil =>
      by_cases h : k = t <;> simp [tmApp, tmGet, h]
  | cons p m ih =>
      obtain ⟨k', vs⟩ := p
      by_cases h1 : k' = k
      · subst h1
        by_cases h2 : k' = t <;> simp [tmApp, tmGet, h2]
      · by_cases h2 : k' = t
        · subst h2
          have h1' : ¬ k = k' := fun h => h1 h.symm
          simp [tmApp, tmGet, h1, h1']
        · simp [tmApp, tmGet, h1, h2, ih]

theorem tmGet_init (ts : List GoStr) (t : GoStr) :
    tmGet (initTargets ts) t = [] := by
  induction ts with
  | nil => simp [initTargets, tmGet]
  | cons s ts ih =>
      by_cases h : s = t <;> simp [initTargets, tmGet, h, ih]

theorem firstPass_get (targets : List GoStr) :
    ∀ (cs : List GoStr) (tv : TagMap) (t : GoStr), t ∈ targets →
      tmGet (firstPass targets tv cs).1 t = tmGet tv t ++ collectSpec t cs := by
  intro cs
  induction cs with
  | nil => intro tv t _; simp [firstPass, collectSpec]
  | cons c cs ih =>
      intro tv t ht
      match hs : splitEq c with
      | none =>
          simp [firstPass, hs, collectSpec, List.filterMap_cons, ih tv t ht]
      | some (k0, v) =>
          by_cases hk : goToUpper k0 ∈ targets
          · by_cases hkt : goToUpper k0 = t
            · simp [firstPass, hs, hk, hkt, ht, collectSpec,
                List.filterMap_cons, ih _ t ht, tmGet_tmApp]
            · simp [firstPass, hs, hk, ht, collectSpec, List.filterMap_cons, hkt,
                ih _ t ht, tmGet_tmApp]
          · have hkt : ¬ goToUpper k0 = t := fun h => hk (h ▸ ht)
            by_cases hmb : mbMarker.isPrefixOf (goToUpper k0)
            · simp [firstPass, hs, hk, hmb, collectSpec, List.filterMap_cons,
                hkt, ih _ t ht, tmGet_tmApp]
            · simp [firstPass, hs, hk, hmb, collectSpec, List.filterMap_cons,
                hkt, ih _ t ht]

theorem secondPass_mod (tv : TagMap) (ts : List GoStr) :
    (secondPass tv ts).2 = ts.any (fun t => decide (2 ≤ (tmGet tv t).length)) := by
  induction ts with
  | nil => simp [secondPass]
  | cons t ts ih =>
      match hg : tmGet tv t with
      | [] => simp [secondPass, hg, ih]
      | [v] => simp [secondPass, hg, ih]
      | v :: v' :: vs => simp [secondPass, hg]

theorem mergeComments_mod (targets comments : List GoStr) :
    (mergeComments targets comments).2 = true ↔
      ∃ t ∈ targets, 2 ≤ (collectSpec t comments).length := by
  simp only [mergeComments, secondPass_mod, List.any_eq_true]
  constructor
  · rintro ⟨t, ht, hdec⟩
    rw [firstPass_get targets comments (initTargets targets) t ht,
      tmGet_init, List.nil_append] at hdec
    exact ⟨t, ht, by simpa using hdec⟩
  · rintro ⟨t, ht, hlen⟩
    refine ⟨t, ht, ?_⟩
    rw [firstPass_get targets comments (initTargets targets) t ht,
      tmGet_init, List.nil_append]
    simpa using hlen

theorem secondPass_empty (tv : TagMap) (ts : List GoStr)
    (h : ∀ t ∈ ts, tmGet tv t = []) : secondPass tv ts = ([], false) := by
  induction ts with
  | nil => simp [secondPass]
  | cons t ts ih =>
      have ht : tmGet tv t = [] := h t (by simp)
      have ih' := ih (fun s hs => h s (by simp [hs]))
      simp [secondPass, ht, ih']

theorem firstPass_passthrough (targets : List GoStr) :
    ∀ (cs : List GoStr) (tv : TagMap),
      (∀ c ∈ cs, ∀ k0 v, splitEq c = some (k0, v) →
        goToUpper k0 ∉ targets) →
      (firstPass targets tv cs).2 = cs := by
  intro cs
  induction cs with
  | nil => intro tv _; simp [firstPass]
  | cons c cs ih =>
      intro tv h
      have hrest : ∀ c' ∈ cs, ∀ k0 v, splitEq c' = some (k0, v) →
          goToUpper k0 ∉ targets := fun c' hc' => h c' (by simp [hc'])
      match hs : splitEq c with
      | none => simp [firstPass, hs, ih _ hrest]
      | some (k0, v) =>
          have hk : goToUpper k0 ∉ targets := h c (by simp) k0 v hs
          by_cases hmb : mbMarker.isPrefixOf (goToUpper k0)
          · simp [firstPass, hs, hk, hmb, ih _ hrest]
          · simp [firstPass, hs, hk, hmb, ih _ hrest]

theorem takeWhile_no_sep {k : GoStr} (v : GoStr) (hk : 61 ∉ k) :
    (k ++ 61 :: v).takeWhile (fun b => b ≠ 61) = k := by
  induction k with
  | nil => simp [List.takeWhile_cons]
  | cons b bs ih =>
      have hb : b ≠ 61 := fun h => hk (by simp [h])
      have hbs : 61 ∉ bs := fun h => hk (by simp [h])
      simpa [List.takeWhile_cons, hb] using ih hbs

theorem drop_after_sep (k v : GoStr) :
    (k ++ 61 :: v).drop (k.length + 1) = v := by
  induction k with
  | nil => simp
  | cons b bs ih =>
      simp only [List.cons_append, List.length_cons, List.drop_succ_cons]
      exact ih

theorem splitEq_append {k : GoStr} (v : GoStr) (hk : 61 ∉ k) :
    splitEq (k ++ 61 :: v) = some (k, v) := by
  have ht := takeWhile_no_sep v hk
  have hlen : ¬ k.length = (k ++ 61 :: v).length := by simp
  simp only [splitEq, ht, hlen, if_false, drop_after_sep]

theorem mem_goToUpper {k : GoStr} (h : 61 ∈ k) : 61 ∈ goToUpper k := by
  simp only [goToUpper, List.mem_map]
  exact ⟨61, h, by norm_num⟩

/-- C3: for every parseable comment block, processMBIDs reports modified
exactly when some merge-target key collected two or more values, and an
unmodified result leaves the metadata block list (hence the comment
payload bytes) untouched — in particular re-merging single-valued targets
is a no-op. -/
theorem c3_modified_iff (targets : List GoStr) (meta : List MetaDataBlock)
    (blk : MetaDataBlock) (vc : VorbisComment)
    (hfind : findVC meta = some blk)
    (hparse : ParseVorbisComment blk.bdata = some vc) :
    ∃ r, processMBIDs targets meta = .ok r ∧
      (r.1 = true ↔ ∃ t ∈ targets, 2 ≤ (collectSpec t vc.comments).length) ∧
      (r.1 = false → r.2 = meta) := by
  by_cases hm : (mergeComments targets vc.comments).2 = true
  · refine ⟨(true, replaceFirstVC (VorbisComment.Marshal
      ⟨vc.vendor, (mergeComments targets vc.comments).1⟩) meta), ?_, ?_, ?_⟩
    · simp [processMBIDs, hfind, hparse, hm]
    · constructor
      · intro _
        exact (mergeComments_mod targets vc.comments).mp hm
      · intro _
        rfl
    · intro h
      exact absurd h (by simp)
  · refine ⟨(false, meta), ?_, ?_, ?_⟩
    · simp [processMBIDs, hfind, hparse, hm]
    · constructor
      · intro h
        exact absurd h (by simp)
      · intro hex
        exact absurd ((mergeComments_mod targets vc.comments).mpr hex) hm
    · intro _
      rfl

/-- Witness for c3_modified_iff at a concrete two-valued block. -/
theorem c3_modified_iff_witness :
    ∃ r, processMBIDs defaultMergeTags
        [⟨4, VorbisComment.Marshal ⟨[],
          [s2b "MUSICBRAINZ_ARTISTID=A", s2b "MUSICBRAINZ_ARTISTID=B"]⟩⟩] =
        .ok r ∧
      (r.1 = true ↔ ∃ t ∈ defaultMergeTags, 2 ≤ (collectSpec t
        [s2b "MUSICBRAINZ_ARTISTID=A", s2b "MUSICBRAINZ_ARTISTID=B"]).length) ∧
      (r.1 = false → r.2 =
        [⟨4, VorbisComment.Marshal ⟨[],
          [s2b "MUSICBRAINZ_ARTISTID=A", s2b "MUSICBRAINZ_ARTISTID=B"]⟩⟩]) :=
  c3_modified_iff defaultMergeTags
    [⟨4, VorbisComment.Marshal ⟨[],
      [s2b "MUSICBRAINZ_ARTISTID=A", s2b "MUSICBRAINZ_ARTISTID=B"]⟩⟩]
    ⟨4, VorbisComment.Marshal ⟨[],
      [s2b "MUSICBRAINZ_ARTISTID=A", s2b "MUSICBRAINZ_ARTISTID=B"]⟩⟩
    ⟨[], [s2b "MUSICBRAINZ_ARTISTID=A", s2b "MUSICBRAINZ_ARTISTID=B"]⟩
    (by decide) (by decide)

/-- C4 counterexample: the claim's vice-versa direction fails — with the
lower-case configured target musicbrainz_artistid, two values of the same
tag are not merged (the code upper-cases the file key and compares it
verbatim with the configured list, so a lower-case configured target
matches nothing) and the block is left unmodified. -/
theorem c4_counterexample :
    processMBIDs [s2b "musicbrainz_artistid"]
      [⟨4, VorbisComment.Marshal ⟨s2b "v",
        [s2b "musicbrainz_artistid=A", s2b "musicbrainz_artistid=B"]⟩⟩] =
      .ok (false, [⟨4, VorbisComment.Marshal ⟨s2b "v",
        [s2b "musicbrainz_artistid=A", s2b "musicbrainz_artistid=B"]⟩⟩]) := by
  decide

/-- C4 (amended): a comment key of any casing matches an upper-case
configured target (its upper-casing is compared with the configured
string), and the merged entry is emitted with exactly the configured
casing; a configured target that no upper-cased key equals — in
particular any target containing a lower-case letter — matches nothing
and the comment list passes through unmodified. -/
theorem c4_casing :
    (∀ key v1 v2 : GoStr,
      goToUpper key = s2b "MUSICBRAINZ_ARTISTID" →
      mergeComments [s2b "MUSICBRAINZ_ARTISTID"]
        [key ++ 61 :: v1, key ++ 61 :: v2] =
      ([s2b "MUSICBRAINZ_ARTISTID" ++ 61 :: (v1 ++ 43 :: v2)], true)) ∧
    (∀ targets cs : List GoStr,
      (∀ c ∈ cs, ∀ k0 v, splitEq c = some (k0, v) →
        goToUpper k0 ∉ targets) →
      mergeComments targets cs = (cs, false)) := by
  constructor
  · intro key v1 v2 hk
    have h61 : 61 ∉ key := by
      intro h
      have hmem := mem_goToUpper h
      rw [hk] at hmem
      exact absurd hmem (by decide)
    have hs1 := splitEq_append v1 h61
    have hs2 := splitEq_append v2 h61
    simp [mergeComments, initTargets, firstPass, hs1, hs2, hk, tmApp,
      secondPass, tmGet, List.intercalate]
  · intro targets cs h
    have h1 : ∀ t ∈ targets,
        tmGet (firstPass targets (initTargets targets) cs).1 t = [] := by
      intro t ht
      rw [firstPass_get targets cs (initTargets targets) t ht, tmGet_init,
        List.nil_append]
      rw [collectSpec, List.filterMap_eq_nil_iff]
      intro c hc
      match hsp : splitEq c with
      | none => simp [hsp]
      | some (k0, v) =>
          have hnt := h c hc k0 v hsp
          have hne : ¬ goToUpper k0 = t := fun he => hnt (he ▸ ht)
          simp [hsp, hne]
    have h2 := secondPass_empty (firstPass targets (initTargets targets) cs).1
      targets h1
    have h3 := firstPass_passthrough targets cs (initTargets targets) h
    simp [mergeComments, h2, h3]

/-- Witness for c4_casing: the matching direction at a fully lower-case
key, and the no-match direction at a lower-case configured target. -/
theorem c4_casing_witness :
    mergeComments [s2b "MUSICBRAINZ_ARTISTID"]
      [s2b "musicbrainz_artistid" ++ 61 :: [65],
       s2b "musicbrainz_artistid" ++ 61 :: [66]] =
      ([s2b "MUSICBRAINZ_ARTISTID" ++ 61 :: ([65] ++ 43 :: [66])], true) ∧
    mergeComments [s2b "musicbrainz_artistid"]
      [s2b "MUSICBRAINZ_ARTISTID=A"] =
      ([s2b "MUSICBRAINZ_ARTISTID=A"], false) :=
  ⟨c4_casing.1 (s2b "musicbrainz_artistid") [65] [66] (by decide),
   c4_casing.2 [s2b "musicbrainz_artistid"] [s2b "MUSICBRAINZ_ARTISTID=A"]
     (by
       intro c hc k0 v hsp
       simp only [List.mem_singleton] at hc
       subst hc
       rw [show splitEq (s2b "MUSICBRAINZ_ARTISTID=A") =
         some (s2b "MUSICBRAINZ_ARTISTID", s2b "A") by decide] at hsp
       obtain ⟨h1, h2⟩ := Prod.mk.injEq .. ▸ (Option.some.injEq .. ▸ hsp)
       subst h1
       decide)⟩

/-- C6: the spec's determinism example — two MUSICBRAINZ_ARTISTID values
and one TITLE under the default merge targets produce exactly the
passthrough TITLE entry followed by the single merged entry with values
joined by the plus byte in encounter order, with modified = true, both at
the mergeComments level and through processMBIDs on a whole block list. -/
theorem c6_merge_example :
    mergeComments defaultMergeTags
      [s2b "MUSICBRAINZ_ARTISTID=A", s2b "MUSICBRAINZ_ARTISTID=B",
       s2b "TITLE=X"] =
    ([s2b "TITLE=X", s2b "MUSICBRAINZ_ARTISTID=A+B"], true) ∧
    processMBIDs defaultMergeTags
      [⟨4, VorbisComment.Marshal ⟨s2b "vendor",
        [s2b "MUSICBRAINZ_ARTISTID=A", s2b "MUSICBRAINZ_ARTISTID=B",
         s2b "TITLE=X"]⟩⟩] =
    .ok (true, [⟨4, VorbisComment.Marshal ⟨s2b "vendor",
      [s2b "TITLE=X", s2b "MUSICBRAINZ_ARTISTID=A+B"]⟩⟩]) := by
  exact ⟨by decide, by decide⟩

/-- C9: when the block list already contains a picture-type block,
processCover returns (false, nil error) and the block list untouched, for
every state of the external cover file and image decoder. -/
theorem c9_cover_noop (coverExists : Bool) (imgConfig : Option (Nat × Nat))
    (imgData : GoStr) (meta : List MetaDataBlock)
    (h : ∃ b ∈ meta, b.btype = picType) :
    processCover coverExists imgConfig imgData meta = .ok (false, meta) := by
  have hany : meta.any (fun b => b.btype = picType) = true := by
    rw [List.any_eq_true]
    obtain ⟨b, hb, ht⟩ := h
    exact ⟨b, hb, by simp [ht]⟩
  simp [processCover, hany]

/-- Witness for c9_cover_noop: a one-block list holding a picture block,
with the external cover present. -/
theorem c9_cover_noop_witness :
    processCover true (some (2, 2)) [7] [⟨6, [1, 2]⟩] =
      .ok (false, [⟨6, [1, 2]⟩]) :=
  c9_cover_noop true (some (2, 2)) [7] [⟨6, [1, 2]⟩]
    ⟨⟨6, [1, 2]⟩, by simp, by decide⟩

/-- C2: at the failing input — default captured-stderr mode (Verbose
false), encoder exiting non-zero after partially writing the temporary
file — convertOpus returns the failure and leaves the final output path
untouched, but does not delete the temporary path: the claimed deletion
happens only in the verbose pass-through mode, shown by the last
conjunct. -/
theorem c2_temp_left_behind :
    (convertOpus false true ⟨false, some ⟨5, 99⟩⟩
      [(s2b "in.flac", ⟨10, 1⟩)] (s2b "in.flac") (s2b "out.opus")).result =
      .error () ∧
    fsStat (convertOpus false true ⟨false, some ⟨5, 99⟩⟩
      [(s2b "in.flac", ⟨10, 1⟩)] (s2b "in.flac") (s2b "out.opus")).fs
      (s2b "out.opus" ++ tmpSuffix) = some ⟨5, 99⟩ ∧
    fsStat (convertOpus false true ⟨false, some ⟨5, 99⟩⟩
      [(s2b "in.flac", ⟨10, 1⟩)] (s2b "in.flac") (s2b "out.opus")).fs
      (s2b "out.opus") = none ∧
    fsStat (convertOpus true false ⟨false, some ⟨5, 99⟩⟩
      [(s2b "in.flac", ⟨10, 1⟩)] (s2b "in.flac") (s2b "out.opus")).fs
      (s2b "out.opus" ++ tmpSuffix) = none := by
  exact ⟨rfl, by decide, by decide, by decide⟩

/-- C7: with the source file present, an existing output whose mtime is
not strictly older than the source means convertOpus skips — unchanged
filesystem, converted = false, zero encoder invocations; a missing or
strictly older output leads to exactly one encoder invocation. -/
theorem c7_staleness (verbose progress : Bool) (enc : Encoder) (m : Fs)
    (inputFile outputFile : GoStr) (inStat : FsFile)
    (hin : fsStat m inputFile = some inStat) :
    (∀ outStat, fsStat m outputFile = some outStat →
      inStat.mtime ≤ outStat.mtime →
      convertOpus verbose progress enc m inputFile outputFile =
        ⟨m, .ok false, 0⟩) ∧
    ((fsStat m outputFile = none ∨
      ∃ outStat, fsStat m outputFile = some outStat ∧
        outStat.mtime < inStat.mtime) →
      (convertOpus verbose progress enc m inputFile outputFile).encCalls
        = 1) := by
  constructor
  · intro outStat hout hle
    have hskip : ¬ outStat.mtime < inStat.mtime := not_lt.mpr hle
    simp [convertOpus, hin, hout, hskip]
  · intro h
    rcases h with hnone | ⟨outStat, hout, hlt⟩
    · simp only [convertOpus, hin, hnone]
      split
      · simp_all
      · split
        · split
          · rfl
          · split <;> rfl
        · split
          · rfl
          · split <;> rfl
    · have hskip : (!decide (outStat.mtime < inStat.mtime)) = false := by
        simp [hlt]
      simp only [convertOpus, hin, hout, hskip]
      split
      · simp_all
      · split
        · split
          · rfl
          · split <;> rfl
        · split
          · rfl
          · split <;> rfl

/-- Witness for c7_staleness: a source with mtime 10, an up-to-date output
with mtime 10 (skipped, no encoder call), and separately a stale run where
the output is missing (one encoder call). -/
theorem c7_staleness_witness :
    convertOpus false true ⟨true, some ⟨11, 2⟩⟩
      [(s2b "a.flac", ⟨10, 1⟩), (s2b "o.opus", ⟨10, 2⟩)]
      (s2b "a.flac") (s2b "o.opus") =
      ⟨[(s2b "a.flac", ⟨10, 1⟩), (s2b "o.opus", ⟨10, 2⟩)], .ok false, 0⟩ ∧
    (convertOpus false true ⟨true, some ⟨11, 2⟩⟩
      [(s2b "a.flac", ⟨10, 1⟩)] (s2b "a.flac") (s2b "o.opus")).encCalls
      = 1 :=
  ⟨(c7_staleness false true ⟨true, some ⟨11, 2⟩⟩
      [(s2b "a.flac", ⟨10, 1⟩), (s2b "o.opus", ⟨10, 2⟩)]
      (s2b "a.flac") (s2b "o.opus") ⟨10, 1⟩ (by decide)).1
      ⟨10, 2⟩ (by decide) (by decide),
   (c7_staleness false true ⟨true, some ⟨11, 2⟩⟩
      [(s2b "a.flac", ⟨10, 1⟩)] (s2b "a.flac") (s2b "o.opus") ⟨10, 1⟩
      (by decide)).2 (Or.inl (by decide))⟩

/-! ## Prune lemmas -/

theorem filesOfL_append (xs ys : List Entry) :
    filesOfL (xs ++ ys) = filesOfL xs ++ filesOfL ys := by
  induction xs with
  | nil => simp [filesOfL]
  | cons x xs ih => simp [filesOfL, ih]

theorem hiddenDirsOfL_append (rel : List GoStr) (xs ys : List Entry) :
    hiddenDirsOfL rel (xs ++ ys) =
      hiddenDirsOfL rel xs ++ hiddenDirsOfL rel ys := by
  induction xs with
  | nil => simp [hiddenDirsOfL]
  | cons x xs ih => simp [hiddenDirsOfL, ih]

mutual

theorem filesOfE_ne_nil (e : Entry) : ∀ p ∈ filesOfE e, p ≠ [] := by
  cases e with
  | file n =>
      intro p hp
      simp only [filesOfE, List.mem_singleton] at hp
      simp [hp]
  | dir n cs =>
      intro p hp
      simp only [filesOfE, List.mem_map] at hp
      obtain ⟨q, _, rfl⟩ := hp
      simp

theorem filesOfL_ne_nil (es : List Entry) : ∀ p ∈ filesOfL es, p ≠ [] := by
  cases es with
  | nil => intro p hp; simp [filesOfL] at hp
  | cons e es =>
      intro p hp
      simp only [filesOfL, List.mem_append] at hp
      rcases hp with h | h
      · exact filesOfE_ne_nil e p h
      · exact filesOfL_ne_nil es p h

end

mutual

theorem mem_walkE (src : List GoStr → Bool) (rel : List GoStr) (e : Entry)
    (p : List GoStr) :
    p ∈ filesOfL (walkE src rel e) ↔
      p ∈ filesOfE e ∧ keepPath src rel p = true := by
  cases e with
  | file n =>
      by_cases hk : keepFile src rel n = true
      · simp [walkE, hk, filesOfL, filesOfE, keepPath]
        intro hp
        simp [hp, keepPath, hk]
      · simp only [walkE, hk, if_false, filesOfL, List.not_mem_nil,
          false_iff, not_and, filesOfE, List.mem_singleton]
        intro hp
        subst hp
        simp [keepPath, hk]
  | dir n cs =>
      by_cases hh : hiddenName n = true
      · simp only [walkE, hh, if_true, filesOfL, List.append_nil, filesOfE,
          List.mem_map]
        constructor
        · rintro ⟨q, hq, rfl⟩
          refine ⟨⟨q, hq, rfl⟩, ?_⟩
          obtain ⟨z, zs, rfl⟩ := List.exists_cons_of_ne_nil
            (filesOfL_ne_nil cs q hq)
          simp [keepPath, hh]
        · rintro ⟨⟨q, hq, rfl⟩, _⟩
          exact ⟨q, hq, rfl⟩
      · simp only [walkE, hh, if_false, filesOfL, List.append_nil, filesOfE,
          List.mem_map]
        constructor
        · rintro ⟨q, hq, rfl⟩
          rw [mem_walkL src (rel ++ [n]) cs q] at hq
          obtain ⟨hq1, hq2⟩ := hq
          refine ⟨⟨q, hq1, rfl⟩, ?_⟩
          obtain ⟨z, zs, rfl⟩ := List.exists_cons_of_ne_nil
            (filesOfL_ne_nil cs q hq1)
          simp [keepPath, hh, hq2]
        · rintro ⟨⟨q, hq, rfl⟩, hkeep⟩
          refine ⟨q, ?_, rfl⟩
          rw [mem_walkL src (rel ++ [n]) cs q]
          refine ⟨hq, ?_⟩
          obtain ⟨z, zs, rfl⟩ := List.exists_cons_of_ne_nil
            (filesOfL_ne_nil cs q hq)
          simpa [keepPath, hh] using hkeep

theorem mem_walkL (src : List GoStr → Bool) (rel : List GoStr)
    (es : List Entry) (p : List GoStr) :
    p ∈ filesOfL (walkL src rel es) ↔
      p ∈ filesOfL es ∧ keepPath src rel p = true := by
  cases es with
  | nil => simp [walkL, filesOfL]
  | cons e es =>
      simp only [walkL, filesOfL_append, List.mem_append, filesOfL,
        mem_walkE src rel e p, mem_walkL src rel es p]
      tauto

end

mutual

theorem hidden_walkE (src : List GoStr → Bool) (rel : List GoStr)
    (e : Entry) :
    hiddenDirsOfL rel (walkE src rel e) = hiddenDirsOfE rel e := by
  cases e with
  | file n =>
      by_cases hk : keepFile src rel n = true <;>
        simp [walkE, hk, hiddenDirsOfL, hiddenDirsOfE]
  | dir n cs =>
      by_cases hh : hiddenName n = true
      · simp [walkE, hh, hiddenDirsOfL, hiddenDirsOfE]
      · simp only [walkE, hh, if_false, hiddenDirsOfL, List.append_nil,
          hiddenDirsOfE, Bool.false_eq_true]
        exact hidden_walkL src (rel ++ [n]) cs

theorem hidden_walkL (src : List GoStr → Bool) (rel : List GoStr)
    (es : List Entry) :
    hiddenDirsOfL rel (walkL src rel es) = hiddenDirsOfL rel es := by
  cases es with
  | nil => simp [walkL]
  | cons e es =>
      simp only [walkL, hiddenDirsOfL_append, hiddenDirsOfL,
        hidden_walkE src rel e, hidden_walkL src rel es]

end

theorem filesOf_removeEmptyTop (n : GoStr) :
    ∀ es, filesOfL (removeEmptyTop n es) = filesOfL es := by
  intro es
  induction es with
  | nil => rfl
  | cons e es ih =>
      cases e with
      | file s => simp [removeEmptyTop, filesOfL, ih]
      | dir m cs =>
          cases cs with
          | nil =>
              by_cases hm : m = n <;>
                simp [removeEmptyTop, hm, filesOfL, filesOfE, ih]
          | cons c cs => simp [removeEmptyTop, filesOfL, ih]

theorem filesOf_removeDirAt (p : List GoStr) :
    ∀ es, filesOfL (removeDirAt es p) = filesOfL es := by
  match p with
  | [] => intro es; rfl
  | [n] => intro es; simp [removeDirAt, filesOf_removeEmptyTop]
  | n :: q :: qs =>
      intro es
      induction es with
      | nil => rfl
      | cons e es ih =>
          simp only [removeDirAt, List.map_cons, filesOfL] at *
          rw [ih]
          cases e with
          | file s => rfl
          | dir m cs =>
              by_cases hm : m = n
              · simp only [hm, if_true, filesOfE,
                  filesOf_removeDirAt (q :: qs) cs]
              · simp [hm]

theorem hidden_removeEmptyTop {n : GoStr} (hn : hiddenName n = false)
    (rel : List GoStr) :
    ∀ es, hiddenDirsOfL rel (removeEmptyTop n es) =
      hiddenDirsOfL rel es := by
  intro es
  induction es with
  | nil => rfl
  | cons e es ih =>
      cases e with
      | file s => simp [removeEmptyTop, hiddenDirsOfL, hiddenDirsOfE, ih]
      | dir m cs =>
          cases cs with
          | nil =>
              by_cases hm : m = n
              · subst hm
                simp [removeEmptyTop, hiddenDirsOfL, hiddenDirsOfE, hn, ih]
              · simp [removeEmptyTop, hm, hiddenDirsOfL, ih]
          | cons c cs => simp [removeEmptyTop, hiddenDirsOfL, ih]

theorem hidden_removeDirAt (p : List GoStr)
    (hp : ∀ d ∈ p, hiddenName d = false) (rel : List GoStr) :
    ∀ es, hiddenDirsOfL rel (removeDirAt es p) = hiddenDirsOfL rel es := by
  match p with
  | [] => intro es; rfl
  | [n] =>
      intro es
      simp [removeDirAt, hidden_removeEmptyTop (hp n (by simp)) rel es]
  | n :: q :: qs =>
      intro es
      have hn : hiddenName n = false := hp n (by simp)
      have hrest : ∀ d ∈ q :: qs, hiddenName d = false :=
        fun d hd => hp d (by simp [hd])
      induction es with
      | nil => rfl
      | cons e es ih =>
          simp only [removeDirAt, List.map_cons, hiddenDirsOfL] at *
          rw [ih]
          cases e with
          | file s => rfl
          | dir m cs =>
              by_cases hm : m = n
              · subst hm
                simp only [if_true, hiddenDirsOfE, hn, Bool.false_eq_true,
                  if_false, hidden_removeDirAt (q :: qs) hrest (rel ++ [m]) cs]
              · simp [hm]

mutual

theorem collect_nonhidden_E (rel : List GoStr) (e : Entry)
    (hrel : ∀ d ∈ rel, hiddenName d = false) :
    ∀ q ∈ collectE rel e, ∀ d ∈ q, hiddenName d = false := by
  cases e with
  | file s => intro q hq; simp [collectE] at hq
  | dir n cs =>
      intro q hq
      by_cases hh : hiddenName n = true
      · simp [collectE, hh] at hq
      · simp only [collectE, hh, if_false, List.mem_cons,
          Bool.false_eq_true] at hq
        have hrel' : ∀ d ∈ rel ++ [n], hiddenName d = false := by
          intro d hd
          rcases List.mem_append.mp hd with h | h
          · exact hrel d h
          · simp only [List.mem_singleton] at h
            subst h
            simpa using hh
        rcases hq with rfl | hq
        · exact hrel'
        · exact collect_nonhidden_L (rel ++ [n]) cs hrel' q hq

theorem collect_nonhidden_L (rel : List GoStr) (es : List Entry)
    (hrel : ∀ d ∈ rel, hiddenName d = false) :
    ∀ q ∈ collectL rel es, ∀ d ∈ q, hiddenName d = false := by
  cases es with
  | nil => intro q hq; simp [collectL] at hq
  | cons e es =>
      intro q hq
      simp only [collectL, List.mem_append] at hq
      rcases hq with h | h
      · exact collect_nonhidden_E rel e hrel q h
      · exact collect_nonhidden_L rel es hrel q h

end

mutual

theorem collect_longer_E (rel : List GoStr) (e : Entry) :
    ∀ q ∈ collectE rel e, rel.length < q.length := by
  cases e with
  | file s => intro q hq; simp [collectE] at hq
  | dir n cs =>
      intro q hq
      by_cases hh : hiddenName n = true
      · simp [collectE, hh] at hq
      · simp only [collectE, hh, if_false, List.mem_cons,
          Bool.false_eq_true] at hq
        rcases hq with rfl | hq
        · simp
        · have := collect_longer_L (rel ++ [n]) cs q hq
          simp only [List.length_append, List.length_cons,
            List.length_nil] at this
          omega

theorem collect_longer_L (rel : List GoStr) (es : List Entry) :
    ∀ q ∈ collectL rel es, rel.length < q.length := by
  cases es with
  | nil => intro q hq; simp [collectL] at hq
  | cons e es =>
      intro q hq
      simp only [collectL, List.mem_append] at hq
      rcases hq with h | h
      · exact collect_longer_E rel e q h
      · exact collect_longer_L rel es q h

end

theorem mem_insertByWeight (p q : List GoStr) (l : List (List GoStr)) :
    q ∈ insertByWeight p l ↔ q = p ∨ q ∈ l := by
  induction l with
  | nil => simp [insertByWeight]
  | cons r l ih =>
      by_cases hw : pathWeight r < pathWeight p
      · simp [insertByWeight, hw]
      · simp [insertByWeight, hw, ih]
        tauto

theorem mem_sortByWeight (q : List GoStr) (l : List (List GoStr)) :
    q ∈ sortByWeight l ↔ q ∈ l := by
  induction l with
  | nil => simp [sortByWeight]
  | cons p l ih => simp [sortByWeight, mem_insertByWeight, ih]

theorem filesOf_foldl (ps : List (List GoStr)) :
    ∀ es, filesOfL (ps.foldl removeDirAt es) = filesOfL es := by
  induction ps with
  | nil => intro es; rfl
  | cons p ps ih =>
      intro es
      simp only [List.foldl_cons, ih, filesOf_removeDirAt]

theorem hidden_foldl (ps : List (List GoStr))
    (h : ∀ p ∈ ps, ∀ d ∈ p, hiddenName d = false) (rel : List GoStr) :
    ∀ es, hiddenDirsOfL rel (ps.foldl removeDirAt es) =
      hiddenDirsOfL rel es := by
  induction ps with
  | nil => intro es; rfl
  | cons p ps ih =>
      intro es
      have hp := h p (by simp)
      have hps : ∀ p' ∈ ps, ∀ d ∈ p', hiddenName d = false :=
        fun p' hp' => h p' (by simp [hp'])
      simp only [List.foldl_cons, ih hps, hidden_removeDirAt p hp rel es]

theorem keepPath_append (src : List GoStr → Bool) :
    ∀ (ds rel : List GoStr) (n : GoStr),
      (∀ d ∈ ds, hiddenName d = false) →
      keepPath src rel (ds ++ [n]) = keepFile src (rel ++ ds) n := by
  intro ds
  induction ds with
  | nil =>
      intro rel n _
      simp [keepPath]
  | cons d ds ih =>
      intro rel n h
      have hd : hiddenName d = false := h d (by simp)
      have hds : ∀ x ∈ ds, hiddenName x = false :=
        fun x hx => h x (by simp [hx])
      obtain ⟨z, zs, hz⟩ : ∃ z zs, ds ++ [n] = z :: zs := by
        cases ds with
        | nil => exact ⟨n, [], rfl⟩
        | cons a as => exact ⟨a, as ++ [n], rfl⟩
      calc keepPath src rel ((d :: ds) ++ [n])
          = keepPath src rel (d :: z :: zs) := by rw [List.cons_append, hz]
        _ = (hiddenName d || keepPath src (rel ++ [d]) (z :: zs)) := by
            simp [keepPath]
        _ = keepPath src (rel ++ [d]) (ds ++ [n]) := by
            rw [hd, Bool.false_or, ← hz]
        _ = keepFile src ((rel ++ [d]) ++ ds) n := ih (rel ++ [d]) n hds
        _ = keepFile src (rel ++ d :: ds) n := by
            rw [List.append_assoc, List.singleton_append]

theorem opus_not_tmp {n : GoStr} (h : isOpusName n = true) :
    isTmpName n = false := by
  cases ht : isTmpName n
  · rfl
  · exfalso
    have hsuf : tmpTail <:+ n := by
      have := ht
      simp only [isTmpName] at this
      exact List.isSuffixOf_iff_suffix.mp this
    obtain ⟨pre, hpre⟩ := hsuf
    have hlit : tmpTail = [46, 111, 112, 117, 115, 46, 116, 109, 112] := by
      decide
    have hext : pathExt n = [46, 116, 109, 112] := by
      rw [← hpre, hlit]
      have hmem : 46 ∈ pre ++ [46, 111, 112, 117, 115, 46, 116, 109, 112] := by
        simp
      simp [pathExt, hmem, List.takeWhile_cons]
    rw [isOpusName, goEqualFold, hext] at h
    exact absurd h (by decide)

theorem keepFile_opus (src : List GoStr → Bool) (rel : List GoStr)
    {n : GoStr} (h : isOpusName n = true) :
    keepFile src rel n = src (expectedFlac rel n) := by
  simp [keepFile, opus_not_tmp h, h]

/-- C8: over any output tree, (i) a ".opus" file not under any hidden
directory whose expected source counterpart does not exist is deleted by
the prune pass; (ii) such a file whose counterpart exists is retained
exactly when it was present; (iii) every hidden directory reachable
without crossing another hidden directory survives with its path and its
entire subtree untouched — it is neither descended into nor deleted. -/
theorem c8_prune (src : List GoStr → Bool) (tree : List Entry)
    (ds : List GoStr) (n : GoStr)
    (hds : ∀ d ∈ ds, hiddenName d = false)
    (hopus : isOpusName n = true) :
    (src (expectedFlac ds n) = false →
      ds ++ [n] ∉ filesOfL (pruneOutput src tree)) ∧
    (src (expectedFlac ds n) = true →
      (ds ++ [n] ∈ filesOfL (pruneOutput src tree) ↔
        ds ++ [n] ∈ filesOfL tree)) ∧
    hiddenDirsOfL [] (pruneOutput src tree) = hiddenDirsOfL [] tree := by
  have hfiles : filesOfL (pruneOutput src tree) =
      filesOfL (walkL src [] tree) := by
    simp only [pruneOutput]
    exact filesOf_foldl _ _
  have hkp : keepPath src [] (ds ++ [n]) = keepFile src ds n := by
    have := keepPath_append src ds [] n hds
    simpa using this
  have hsorted : ∀ p ∈ sortByWeight (collectL [] tree), ∀ d ∈ p,
      hiddenName d = false := by
    intro p hp
    exact collect_nonhidden_L [] tree (by simp) p
      ((mem_sortByWeight p _).mp hp)
  refine ⟨?_, ?_, ?_⟩
  · intro hsrc
    rw [hfiles, mem_walkL]
    rintro ⟨_, hk⟩
    rw [hkp, keepFile_opus src ds hopus, hsrc] at hk
    exact absurd hk (by simp)
  · intro hsrc
    rw [hfiles, mem_walkL, hkp, keepFile_opus src ds hopus, hsrc]
    simp
  · simp only [pruneOutput]
    rw [hidden_foldl (sortByWeight (collectL [] tree)) hsorted []]
    exact hidden_walkL src [] tree

/-- Witness for c8_prune: a two-album tree where al/x.opus is an orphan
(deleted), al/y.opus has a source (retained), and the hidden directory
.st with its contents is untouched. -/
theorem c8_prune_witness :
    ((fun p => decide (p = [s2b "al", s2b "y.flac"]))
        (expectedFlac [s2b "al"] (s2b "x.opus")) = false →
      [s2b "al"] ++ [s2b "x.opus"] ∉ filesOfL (pruneOutput
        (fun p => decide (p = [s2b "al", s2b "y.flac"]))
        [.dir (s2b "al") [.file (s2b "x.opus"), .file (s2b "y.opus")],
         .dir (s2b ".st") [.file (s2b "z.opus")]])) ∧
    ((fun p => decide (p = [s2b "al", s2b "y.flac"]))
        (expectedFlac [s2b "al"] (s2b "x.opus")) = true →
      ([s2b "al"] ++ [s2b "x.opus"] ∈ filesOfL (pruneOutput
        (fun p => decide (p = [s2b "al", s2b "y.flac"]))
        [.dir (s2b "al") [.file (s2b "x.opus"), .file (s2b "y.opus")],
         .dir (s2b ".st") [.file (s2b "z.opus")]]) ↔
       [s2b "al"] ++ [s2b "x.opus"] ∈ filesOfL
        [.dir (s2b "al") [.file (s2b "x.opus"), .file (s2b "y.opus")],
         .dir (s2b ".st") [.file (s2b "z.opus")]])) ∧
    hiddenDirsOfL [] (pruneOutput
        (fun p => decide (p = [s2b "al", s2b "y.flac"]))
        [.dir (s2b "al") [.file (s2b "x.opus"), .file (s2b "y.opus")],
         .dir (s2b ".st") [.file (s2b "z.opus")]]) =
      hiddenDirsOfL []
        [.dir (s2b "al") [.file (s2b "x.opus"), .file (s2b "y.opus")],
         .dir (s2b ".st") [.file (s2b "z.opus")]] :=
  c8_prune (fun p => decide (p = [s2b "al", s2b "y.flac"]))
    [.dir (s2b "al") [.file (s2b "x.opus"), .file (s2b "y.opus")],
     .dir (s2b ".st") [.file (s2b "z.opus")]]
    [s2b "al"] (s2b "x.opus") (by decide) (by decide)

/-- C10: the dirsToRemove collection never contains the output root's own
(empty relative) path — the two path-differs-from-root guards in the
source — so the removal loop never attempts the root, and after pruning
the root directory node still exists, whatever remains of its
children. -/
theorem c10_root_never_removed (src : List GoStr → Bool) (name : GoStr)
    (tree : List Entry) :
    [] ∉ collectL [] tree ∧
    [] ∉ sortByWeight (collectL [] tree) ∧
    ∃ cs, pruneRoot src name tree = .dir name cs := by
  have h1 : [] ∉ collectL [] tree := by
    intro h
    have := collect_longer_L [] tree [] h
    simp at this
  exact ⟨h1, fun h => h1 ((mem_sortByWeight [] _).mp h), ⟨_, rfl⟩⟩
